import Mathlib

/-!
Verification development for the skip-gram word2vec notebooks
(`word2vec-skip-gram-tensorboard.ipynb`, `word2vec-skip-gram-restore-model.ipynb`).

The data-preparation pipeline (vocabulary pickle cell, `subsampling`,
`get_target`, `get_batches`) and the nearest-neighbor validation
(`validate` plus the `(-sim[i, :]).argsort()[1:top_k+1]` ranking) are
shallowly embedded below.  Python lists become `List`, machine floats are
idealized as real numbers, and every call to a random source
(`np.random.randint`, `random.random`) is modelled by an explicit input
function giving the value drawn at each call site, indexed by position.
-/

set_option maxHeartbeats 1000000

namespace Word2Vec

/-- Python list slice `l[a:b]` for non-negative bounds `a ≤ b`
(the only shape used by the notebooks): keep indices `a, …, b-1`,
clipping at the end of the list exactly as Python slicing does. -/
def pySlice {α : Type} (l : List α) (a b : ℕ) : List α :=
  (l.take b).drop a

/-- Embeds `get_target(words, idx, window_size)`.
The call `R = np.random.randint(1, window_size+1)` is modelled by passing the
drawn radius `R` explicitly.  `start = np.max([0, idx - R])` is natural
truncated subtraction `idx - R`; the Python `set(...)`/`list(...)` round trip
is modelled by `List.dedup` (all claims about the target set are insensitive
to iteration order). -/
def get_target (words : List ℕ) (idx R : ℕ) : List ℕ :=
  (pySlice words (idx - R) idx ++ pySlice words (idx + 1) (idx + R + 1)).dedup

/-- Embeds the inner loop of `get_batches`: starting from `x, y = [], []`,
for each `i` in `range(len(batch))` extend `x` by `len(batch_y)` copies of
`batch[i]` and `y` by `batch_y = get_target(batch, i, window_size)`,
where `r i` is the radius drawn for position `i` of this batch. -/
def batchStep (batch : List ℕ) (r : ℕ → ℕ) : List ℕ × List ℕ :=
  (List.range batch.length).foldl
    (fun xy i =>
      (xy.1 ++ List.replicate (get_target batch i (r i)).length (batch.getD i 0),
       xy.2 ++ get_target batch i (r i)))
    ([], [])

/-- Embeds `get_batches(words, batch_size, window_size)` with the generator
materialized as the list of yielded `(x, y)` pairs.
`n_batches = int(len(words) / batch_size)` is floor division, the sequence is
truncated to `n_batches * batch_size` tokens, and each batch slice
`words[idx : idx + batch_size]` is processed by the inner loop.
`rs p` is the radius drawn by `np.random.randint(1, window_size+1)` when the
center at absolute position `p` of the truncated sequence is processed (the
draws happen once per center, in position order). -/
def get_batches (words : List ℕ) (batch_size : ℕ) (rs : ℕ → ℕ) :
    List (List ℕ × List ℕ) :=
  (List.range (words.length / batch_size)).map (fun k =>
    batchStep
      (pySlice (words.take (words.length / batch_size * batch_size))
        (k * batch_size) (k * batch_size + batch_size))
      (fun i => rs (k * batch_size + i)))

theorem mem_pySlice {α : Type} {l : List α} {a b : ℕ} {x : α} :
    x ∈ pySlice l a b ↔ ∃ p, a ≤ p ∧ p < b ∧ l[p]? = some x := by
  unfold pySlice
  rw [List.mem_iff_getElem?]
  constructor
  · rintro ⟨n, hn⟩
    rw [List.getElem?_drop] at hn
    have hlt : a + n < b := by
      obtain ⟨h, -⟩ := List.getElem?_eq_some_iff.mp hn
      rw [List.length_take] at h
      omega
    rw [List.getElem?_take_of_lt hlt] at hn
    exact ⟨a + n, Nat.le_add_right _ _, hlt, hn⟩
  · rintro ⟨p, hap, hpb, hp⟩
    refine ⟨p - a, ?_⟩
    rw [List.getElem?_drop, show a + (p - a) = p by omega,
      List.getElem?_take_of_lt hpb]
    exact hp

/-- Claim C3: the target set for center `idx` and drawn radius `R` consists exactly
of the tokens at positions within `R` of `idx` on both sides, excluding
position `idx` itself, clipped at the sequence boundaries, without
duplicates. -/
theorem get_target_window (words : List ℕ) (idx R : ℕ)
    (hidx : idx < words.length) (hR : 1 ≤ R) :
    (get_target words idx R).Nodup ∧
      ∀ x, x ∈ get_target words idx R ↔
        ∃ p, idx - R ≤ p ∧ p ≤ min (words.length - 1) (idx + R) ∧ p ≠ idx ∧
          words[p]? = some x := by
  refine ⟨List.nodup_dedup _, fun x => ?_⟩
  unfold get_target
  rw [List.mem_dedup, List.mem_append, mem_pySlice, mem_pySlice]
  constructor
  · rintro (⟨p, h1, h2, h3⟩ | ⟨p, h1, h2, h3⟩) <;>
    · have hpl : p < words.length := (List.getElem?_eq_some_iff.mp h3).1
      exact ⟨p, by omega, by omega, by omega, h3⟩
  · rintro ⟨p, h1, h2, h3, h4⟩
    have hpl : p < words.length := (List.getElem?_eq_some_iff.mp h4).1
    rcases Nat.lt_or_ge p idx with h | h
    · exact Or.inl ⟨p, by omega, by omega, h4⟩
    · exact Or.inr ⟨p, by omega, by omega, h4⟩

theorem foldl_extend {α : Type} (l : List ℕ) (f g : ℕ → List α) (a b : List α) :
    l.foldl (fun xy i => (xy.1 ++ f i, xy.2 ++ g i)) (a, b) =
      (a ++ (l.map f).flatten, b ++ (l.map g).flatten) := by
  induction l generalizing a b with
  | nil => simp
  | cons i t ih => simp [ih, List.append_assoc]

/-- The imperative `extend` loop of `get_batches` builds exactly the
concatenation, over batch positions in order, of the per-center replicated
centers and of the per-center target lists. -/
theorem batchStep_eq (batch : List ℕ) (r : ℕ → ℕ) :
    batchStep batch r =
      (((List.range batch.length).map
          (fun i => List.replicate (get_target batch i (r i)).length
            (batch.getD i 0))).flatten,
       ((List.range batch.length).map (fun i => get_target batch i (r i))).flatten) := by
  unfold batchStep
  rw [foldl_extend (List.range batch.length)
    (fun i => List.replicate (get_target batch i (r i)).length (batch.getD i 0))
    (fun i => get_target batch i (r i)) [] []]
  simp

theorem zip_replicate_length {α β : Type} (x : α) (t : List β) :
    (List.replicate t.length x).zip t = t.map (fun c => (x, c)) := by
  induction t with
  | nil => rfl
  | cons b t ih => simpa [List.replicate_succ] using ih

theorem zip_flatten_pairs {α β : Type} (l : List ℕ) (c : ℕ → α) (g : ℕ → List β) :
    ((l.map (fun i => List.replicate (g i).length (c i))).flatten).zip
        ((l.map g).flatten) =
      (l.map (fun i => (g i).map (fun t => (c i, t)))).flatten := by
  induction l with
  | nil => rfl
  | cons i t ih =>
    simp only [List.map_cons, List.flatten_cons]
    rw [List.zip_append (by simp), ih, zip_replicate_length]

theorem get_batches_length (words : List ℕ) (B : ℕ) (rs : ℕ → ℕ) :
    (get_batches words B rs).length = words.length / B := by
  simp [get_batches]

theorem get_batches_getD (words : List ℕ) (B : ℕ) (rs : ℕ → ℕ) (k : ℕ)
    (hk : k < words.length / B) :
    (get_batches words B rs).getD k ([], []) =
      batchStep
        (pySlice (words.take (words.length / B * B)) (k * B) (k * B + B))
        (fun i => rs (k * B + i)) := by
  unfold get_batches
  rw [List.getD_eq_getElem?_getD, List.getElem?_eq_getElem (by simpa using hk)]
  simp

theorem batch_slice_length (words : List ℕ) (B k : ℕ) (hk : k < words.length / B) :
    (pySlice (words.take (words.length / B * B)) (k * B) (k * B + B)).length = B := by
  have h1 : words.length / B * B ≤ words.length := Nat.div_mul_le_self _ _
  have h2 : k * B + B ≤ words.length / B * B := by
    have h := Nat.mul_le_mul_right B (show k + 1 ≤ words.length / B by omega)
    rwa [Nat.succ_mul] at h
  simp only [pySlice, List.length_drop, List.length_take]
  omega

theorem batch_getElem (words : List ℕ) (B k i : ℕ) (hk : k < words.length / B)
    (hi : i < B) :
    words[k * B + i]? =
      some ((pySlice (words.take (words.length / B * B))
        (k * B) (k * B + B)).getD i 0) := by
  have h1 : words.length / B * B ≤ words.length := Nat.div_mul_le_self _ _
  have h2 : k * B + B ≤ words.length / B * B := by
    have h := Nat.mul_le_mul_right B (show k + 1 ≤ words.length / B by omega)
    rwa [Nat.succ_mul] at h
  rw [List.getD_eq_getElem?_getD]
  unfold pySlice
  rw [List.getElem?_drop, List.getElem?_take_of_lt (by omega),
    List.getElem?_take_of_lt (by omega),
    List.getElem?_eq_getElem (show k * B + i < words.length by omega)]
  rfl

/-- Claim C10: `get_batches` yields exactly `⌊N/B⌋` batches (none at all when
`N < B`), each batch slice has exactly `B` consecutive center positions, and
every emitted center token comes from a position `k*B + i` strictly below
`⌊N/B⌋ * B`, so the trailing `N mod B` tokens never appear as centers. -/
theorem get_batches_count (words : List ℕ) (B : ℕ) (rs : ℕ → ℕ) (hB : 0 < B) :
    (get_batches words B rs).length = words.length / B ∧
      (words.length < B → get_batches words B rs = []) ∧
      ∀ k, k < words.length / B →
        (pySlice (words.take (words.length / B * B))
          (k * B) (k * B + B)).length = B ∧
        ∀ c ∈ ((get_batches words B rs).getD k ([], [])).1,
          ∃ i, i < B ∧ k * B + i < words.length / B * B ∧
            words[k * B + i]? = some c := by
  refine ⟨get_batches_length words B rs, ?_, ?_⟩
  · intro h
    have h0 : words.length / B = 0 := Nat.div_eq_of_lt h
    simp [get_batches, h0]
  · intro k hk
    refine ⟨batch_slice_length words B k hk, ?_⟩
    intro c hc
    rw [get_batches_getD words B rs k hk, batchStep_eq] at hc
    simp only [List.mem_flatten, List.mem_map, List.mem_range] at hc
    obtain ⟨l, ⟨i, hi, rfl⟩, hcl⟩ := hc
    rw [List.mem_replicate] at hcl
    have hiB : i < B := by rwa [batch_slice_length words B k hk] at hi
    have h2 : k * B + B ≤ words.length / B * B := by
      have h := Nat.mul_le_mul_right B (show k + 1 ≤ words.length / B by omega)
      rwa [Nat.succ_mul] at h
    refine ⟨i, hiB, by omega, ?_⟩
    rw [hcl.2]
    exact batch_getElem words B k i hk hiB

/-- Witness for the C10 theorem at `words = [1,2,3]`, `B = 2`. -/
theorem get_batches_count_witness :
    0 < 2 ∧
      ((get_batches [1, 2, 3] 2 (fun _ => 1)).length = ([1, 2, 3] : List ℕ).length / 2 ∧
        (([1, 2, 3] : List ℕ).length < 2 → get_batches [1, 2, 3] 2 (fun _ => 1) = []) ∧
        ∀ k, k < ([1, 2, 3] : List ℕ).length / 2 →
          (pySlice (([1, 2, 3] : List ℕ).take (([1, 2, 3] : List ℕ).length / 2 * 2))
            (k * 2) (k * 2 + 2)).length = 2 ∧
          ∀ c ∈ ((get_batches [1, 2, 3] 2 (fun _ => 1)).getD k ([], [])).1,
            ∃ i, i < 2 ∧ k * 2 + i < ([1, 2, 3] : List ℕ).length / 2 * 2 ∧
              ([1, 2, 3] : List ℕ)[k * 2 + i]? = some c) :=
  ⟨by decide, get_batches_count [1, 2, 3] 2 (fun _ => 1) (by decide)⟩

/-- The batch slice `words[k*batch_size : (k+1)*batch_size]` of the truncated
sequence processed by the `k`-th iteration of `get_batches`. -/
def batchOf (words : List ℕ) (B k : ℕ) : List ℕ :=
  pySlice (words.take (words.length / B * B)) (k * B) (k * B + B)

/-- Claim C7: every yielded batch is a pair `(x, y)` of flat lists: `x` is the
concatenation, over the batch's positions in order, of each center token
replicated once per context in that center's target set, `y` is the
concatenation of the target sets, the two have equal length, and
index-for-index `x.zip y` lists exactly the (center, context) pairs of each
center's target set, in order. -/
theorem get_batches_flat_aligned (words : List ℕ) (B : ℕ) (rs : ℕ → ℕ)
    (hB : 0 < B) (k : ℕ) (hk : k < (get_batches words B rs).length) :
    ∀ x y, (get_batches words B rs).getD k ([], []) = (x, y) →
      x = ((List.range (batchOf words B k).length).map
            (fun i => List.replicate
              (get_target (batchOf words B k) i (rs (k * B + i))).length
              ((batchOf words B k).getD i 0))).flatten ∧
      y = ((List.range (batchOf words B k).length).map
            (fun i => get_target (batchOf words B k) i (rs (k * B + i)))).flatten ∧
      x.length = y.length ∧
      x.zip y = ((List.range (batchOf words B k).length).map
            (fun i => (get_target (batchOf words B k) i (rs (k * B + i))).map
              (fun c => ((batchOf words B k).getD i 0, c)))).flatten := by
  intro x y hxy
  have hk' : k < words.length / B := by rwa [get_batches_length] at hk
  rw [get_batches_getD words B rs k hk', batchStep_eq] at hxy
  injection hxy with hx hy
  subst hx
  subst hy
  refine ⟨rfl, rfl, ?_, ?_⟩
  · simp only [List.length_flatten, List.map_map]
    apply congrArg
    apply List.map_congr_left
    intro i _
    simp [Function.comp]
  · exact zip_flatten_pairs (List.range (batchOf words B k).length)
      (fun i => (batchOf words B k).getD i 0)
      (fun i => get_target (batchOf words B k) i (rs (k * B + i)))

/-- Witness for the C7 theorem at `words = [1,2]`, `B = 2`, `k = 0`,
all radius draws equal to 1. -/
theorem get_batches_flat_aligned_witness :
    0 < 2 ∧ 0 < (get_batches [1, 2] 2 (fun _ => 1)).length ∧
      ∀ x y, (get_batches [1, 2] 2 (fun _ => 1)).getD 0 ([], []) = (x, y) →
        x = ((List.range (batchOf [1, 2] 2 0).length).map
              (fun i => List.replicate
                (get_target (batchOf [1, 2] 2 0) i 1).length
                ((batchOf [1, 2] 2 0).getD i 0))).flatten ∧
        y = ((List.range (batchOf [1, 2] 2 0).length).map
              (fun i => get_target (batchOf [1, 2] 2 0) i 1)).flatten ∧
        x.length = y.length ∧
        x.zip y = ((List.range (batchOf [1, 2] 2 0).length).map
              (fun i => (get_target (batchOf [1, 2] 2 0) i 1).map
                (fun c => ((batchOf [1, 2] 2 0).getD i 0, c)))).flatten :=
  ⟨by decide, by decide,
    get_batches_flat_aligned [1, 2] 2 (fun _ => 1) (by decide) 0 (by decide)⟩

/-- Claim C1 fails on the code: with token sequence `[5,5]`, batch size 2 and
window size 1 (whose only possible radius draw is `R = 1`), the generator
emits the batch `([5,5],[5,5])`, i.e. the aligned pairs `(5,5)` and `(5,5)`,
each with its center equal to its context.  `get_target` excludes the center
position, not the center token value. -/
theorem self_pair_counterexample :
    get_batches [5, 5] 2 (fun _ => 1) = [([5, 5], [5, 5])] ∧
      (5, 5) ∈ ((get_batches [5, 5] 2 (fun _ => 1)).headI.1.zip
        (get_batches [5, 5] 2 (fun _ => 1)).headI.2) := by decide

/-- Claim C1 amended: no emitted pair takes its context from the center's own
position, so for every token sequence without repeated tokens no emitted
(center, context) pair has its center equal to its context; when a token
value recurs inside the window, equal-valued pairs can be emitted. -/
theorem no_self_pair_of_nodup (words : List ℕ) (B : ℕ) (rs : ℕ → ℕ)
    (hnd : words.Nodup) :
    ∀ xy ∈ get_batches words B rs, ∀ p ∈ xy.1.zip xy.2, p.1 ≠ p.2 := by
  intro xy hxy p hp
  unfold get_batches at hxy
  simp only [List.mem_map, List.mem_range] at hxy
  obtain ⟨k, hk, rfl⟩ := hxy
  rw [batchStep_eq] at hp
  simp only at hp
  rw [zip_flatten_pairs] at hp
  simp only [List.mem_flatten, List.mem_map, List.mem_range] at hp
  obtain ⟨l, ⟨i, hi, rfl⟩, hpl⟩ := hp
  obtain ⟨c, hc, rfl⟩ := List.mem_map.mp hpl
  have hbn : (pySlice (words.take (words.length / B * B))
      (k * B) (k * B + B)).Nodup :=
    (((List.drop_sublist _ _).trans (List.take_sublist _ _)).trans
      (List.take_sublist _ _)).nodup hnd
  unfold get_target at hc
  rw [List.mem_dedup, List.mem_append, mem_pySlice, mem_pySlice] at hc
  simp only [ne_eq]
  set batch := pySlice (words.take (words.length / B * B))
    (k * B) (k * B + B) with hbatch
  intro heq
  have hgetD : batch.getD i 0 = batch.get ⟨i, hi⟩ := by
    rw [List.getD_eq_getElem?_getD, List.getElem?_eq_getElem hi]
    rfl
  rcases hc with ⟨pos, h1, h2, h3⟩ | ⟨pos, h1, h2, h3⟩ <;>
  · obtain ⟨hposl, hval⟩ := List.getElem?_eq_some_iff.mp h3
    have hval2 : batch.get ⟨pos, hposl⟩ = c := by
      rw [List.get_eq_getElem]
      exact hval
    rw [hgetD, ← hval2] at heq
    have hfin := (hbn.get_inj_iff).mp heq
    have hip : i = pos := congrArg Fin.val hfin
    omega

/-- Witness for the amended C1 theorem at `words = [1,2,3]`, `B = 3`. -/
theorem no_self_pair_of_nodup_witness :
    ([1, 2, 3] : List ℕ).Nodup ∧
      ∀ xy ∈ get_batches [1, 2, 3] 3 (fun _ => 1),
        ∀ p ∈ xy.1.zip xy.2, p.1 ≠ p.2 :=
  ⟨by decide, no_self_pair_of_nodup [1, 2, 3] 3 (fun _ => 1) (by decide)⟩

/-- Witness for the C3 theorem at `words = [1,2,3]`, `idx = 1`, `R = 1`. -/
theorem get_target_window_witness :
    (1 < ([1, 2, 3] : List ℕ).length) ∧ 1 ≤ 1 ∧
      ((get_target [1, 2, 3] 1 1).Nodup ∧
        ∀ x, x ∈ get_target [1, 2, 3] 1 1 ↔
          ∃ p, 1 - 1 ≤ p ∧ p ≤ min (([1, 2, 3] : List ℕ).length - 1) (1 + 1) ∧
            p ≠ 1 ∧ ([1, 2, 3] : List ℕ)[p]? = some x) :=
  ⟨by decide, le_refl 1, get_target_window [1, 2, 3] 1 1 (by decide) (le_refl 1)⟩

/-- Corpus-wide relative frequency computed by `subsampling` from its own
input: `freqs = {word: count/total_count for word, count in words_count.items()}`,
with `words_count = Counter(words)` and `total_count = len(words)`.
Machine floats are idealized as real numbers. -/
noncomputable def freqs (words : List ℕ) (word : ℕ) : ℝ :=
  (words.count word : ℝ) / (words.length : ℝ)

/-- Drop probability
`p_drop = {word: 1 - np.sqrt(threshold/freqs[word]) for word in words_count}`. -/
noncomputable def p_drop (words : List ℕ) (threshold : ℝ) (word : ℕ) : ℝ :=
  1 - Real.sqrt (threshold / freqs words word)

/-- One pass of the comprehension
`[word for word in words if p_drop[word] < random.random()]`:
`rand k` is the value returned by the `k`-th call of `random.random()`
(one call per word, in input order, counting from `k`). -/
noncomputable def subsamplingAux (p : ℕ → ℝ) (rand : ℕ → ℝ) :
    List ℕ → ℕ → List ℕ
  | [], _ => []
  | w :: ws, k =>
    if p w < rand k then w :: subsamplingAux p rand ws (k + 1)
    else subsamplingAux p rand ws (k + 1)

/-- Embeds `subsampling(words, threshold)` with the randomness source made an
explicit input. -/
noncomputable def subsampling (words : List ℕ) (threshold : ℝ)
    (rand : ℕ → ℝ) : List ℕ :=
  subsamplingAux (p_drop words threshold) rand words 0

/-- The subsampler as claim C4's words describe it: an occurrence is dropped
exactly when the uniform draw is strictly *less than* the drop probability,
i.e. retained when `p_drop ≤ rand k`.  Defined only for comparison with the
code's `subsampling`, which retains exactly when `p_drop < rand k`. -/
noncomputable def subsamplingSpecC4Aux (p : ℕ → ℝ) (rand : ℕ → ℝ) :
    List ℕ → ℕ → List ℕ
  | [], _ => []
  | w :: ws, k =>
    if rand k < p w then subsamplingSpecC4Aux p rand ws (k + 1)
    else w :: subsamplingSpecC4Aux p rand ws (k + 1)

/-- Claim C4's drop rule packaged like `subsampling`. -/
noncomputable def subsamplingSpecC4 (words : List ℕ) (threshold : ℝ)
    (rand : ℕ → ℝ) : List ℕ :=
  subsamplingSpecC4Aux (p_drop words threshold) rand words 0

/-- Claim C4 fails at the boundary draw: with `words = [0]` and `threshold = 1/4`,
the drop probability of token `0` is exactly `1/2`; at the draw
`rand 0 = 1/2` (a legal uniform[0,1) value) the code drops the occurrence
(it keeps only when `p_drop < rand`), while the claimed rule "drop exactly
when the draw is less than p" retains it. -/
theorem subsampling_boundary_counterexample :
    p_drop [0] (1 / 4) 0 = 1 / 2 ∧
      subsampling [0] (1 / 4) (fun _ => 1 / 2) = [] ∧
      subsamplingSpecC4 [0] (1 / 4) (fun _ => 1 / 2) = [0] := by
  have hp : p_drop [0] (1 / 4) 0 = 1 / 2 := by
    unfold p_drop freqs
    have hc : (([0] : List ℕ).count 0 : ℝ) = 1 := by norm_num
    have hl : (([0] : List ℕ).length : ℝ) = 1 := by norm_num
    rw [hc, hl]
    rw [show (1 : ℝ) / 4 / (1 / 1) = (1 / 2) ^ 2 by norm_num,
      Real.sqrt_sq (by norm_num : (0 : ℝ) ≤ 1 / 2)]
    norm_num
  refine ⟨hp, ?_, ?_⟩
  · simp only [subsampling, subsamplingAux, hp]
    norm_num
  · simp only [subsamplingSpecC4, subsamplingSpecC4Aux, hp]
    norm_num

theorem subsamplingAux_characterization (p : ℕ → ℝ) (rand : ℕ → ℝ)
    (l : List ℕ) (k : ℕ) :
    subsamplingAux p rand l k =
      ((List.enumFrom k l).filter
        (fun ia => decide (p ia.2 < rand ia.1))).map Prod.snd := by
  induction l generalizing k with
  | nil => simp [subsamplingAux]
  | cons w ws ih =>
    rw [subsamplingAux]
    by_cases h : p w < rand k
    · simp [List.enumFrom, List.filter_cons, h, ih]
    · simp [List.enumFrom, List.filter_cons, h, ih]

/-- Claim C4 amended: the subsampler computes `f = count/len` and
`p = 1 - sqrt(t/f)` as claimed, but it *retains* an occurrence exactly when
the draw strictly exceeds `p`, i.e. it drops exactly when the draw is less
than **or equal to** `p` (the claim's strict "drops when draw < p" rule
differs at draws exactly equal to `p`). -/
theorem subsampling_characterization (words : List ℕ) (threshold : ℝ)
    (rand : ℕ → ℝ) :
    subsampling words threshold rand =
      ((words.enum.filter
        (fun ia => decide (p_drop words threshold ia.2 < rand ia.1))).map
        Prod.snd) := by
  unfold subsampling
  rw [subsamplingAux_characterization]
  rfl

/-- Helper: shared positivity facts about the frequency table. -/
theorem freqs_pos_of_mem {words : List ℕ} {w : ℕ} (hw : w ∈ words) :
    0 < freqs words w := by
  unfold freqs
  apply div_pos
  · exact_mod_cast List.count_pos_iff.mpr hw
  · exact_mod_cast List.length_pos_of_mem hw

/-- Claim C9: every token occurring in the input has strictly positive count in the
frequency table computed from that same input, hence strictly positive
relative frequency, so the divisions `count/total_count` and
`threshold/freqs[word]` are well defined (never 0/0) at every token the
comprehension iterates over. -/
theorem subsampling_freq_defined (words : List ℕ) (w : ℕ) (hw : w ∈ words) :
    0 < words.count w ∧ 0 < (words.length : ℝ) ∧ 0 < freqs words w :=
  ⟨List.count_pos_iff.mpr hw,
   by exact_mod_cast List.length_pos_of_mem hw,
   freqs_pos_of_mem hw⟩

/-- Witness for the C9 theorem at `words = [3]`, `w = 3`. -/
theorem subsampling_freq_defined_witness :
    (3 ∈ ([3] : List ℕ)) ∧
      (0 < ([3] : List ℕ).count 3 ∧ 0 < (([3] : List ℕ).length : ℝ) ∧
        0 < freqs [3] 3) :=
  ⟨by decide, subsampling_freq_defined [3] 3 (by decide)⟩

/-- Claim C8: with the threshold held fixed (and nonnegative), the drop probability
`p_drop = 1 - sqrt(threshold/freqs)` is monotonically non-decreasing in the
corpus frequency: among tokens of the same input sequence, equal or higher
frequency gives equal or higher drop probability. -/
theorem p_drop_monotone (words : List ℕ) (t : ℝ) (w1 w2 : ℕ)
    (hw1 : w1 ∈ words) (hw2 : w2 ∈ words) (ht : 0 ≤ t)
    (hf : freqs words w1 ≤ freqs words w2) :
    p_drop words t w1 ≤ p_drop words t w2 := by
  have h1 : 0 < freqs words w1 := freqs_pos_of_mem hw1
  have h2 : t / freqs words w2 ≤ t / freqs words w1 := by gcongr
  have h3 := Real.sqrt_le_sqrt h2
  unfold p_drop
  linarith

/-- Witness for the C8 theorem at `words = [0,1,1]`, `t = 1/100`. -/
theorem p_drop_monotone_witness :
    (0 ∈ ([0, 1, 1] : List ℕ)) ∧ (1 ∈ ([0, 1, 1] : List ℕ)) ∧
      ((0 : ℝ) ≤ 1 / 100) ∧ freqs [0, 1, 1] 0 ≤ freqs [0, 1, 1] 1 ∧
      p_drop [0, 1, 1] (1 / 100) 0 ≤ p_drop [0, 1, 1] (1 / 100) 1 := by
  have hc0 : (([0, 1, 1] : List ℕ).count 0) = 1 := by decide
  have hc1 : (([0, 1, 1] : List ℕ).count 1) = 2 := by decide
  have hfr : freqs [0, 1, 1] 0 ≤ freqs [0, 1, 1] 1 := by
    unfold freqs
    rw [hc0, hc1]
    norm_num
  exact ⟨by decide, by decide, by norm_num, hfr,
    p_drop_monotone [0, 1, 1] (1 / 100) 0 1 (by decide) (by decide)
      (by norm_num) hfr⟩

/-- Dot product of two real vectors: one entry of the dense matmul
`tf.matmul(sample_embedding, tf.transpose(normalized_embedding))`. -/
noncomputable def dot (u v : List ℝ) : ℝ :=
  (List.zipWith (fun a b => a * b) u v).sum

/-- Row L2 norm `tf.sqrt(tf.reduce_sum(tf.square(embeddings), 1))`. -/
noncomputable def rowNorm (r : List ℝ) : ℝ :=
  Real.sqrt ((r.map (fun x => x ^ 2)).sum)

/-- A row of `normalized_embedding = embeddings / norm`. -/
noncomputable def normalizeRow (r : List ℝ) : List ℝ :=
  r.map (fun x => x / rowNorm r)

/-- Row of the similarity matrix returned by `validate(embeddings, int_codes)`
for query id `q`: the cosine similarities between the `q`-th normalized row
(`sample_embedding = tf.nn.embedding_lookup(normalized_embedding, q)`) and
every normalized vocabulary row. -/
noncomputable def simRow (table : List (List ℝ)) (q : ℕ) : List ℝ :=
  (table.map normalizeRow).map
    (fun row => dot ((table.map normalizeRow).getD q []) row)

/-- Embeds `validate(embeddings, int_codes)`: one similarity row per query. -/
noncomputable def validate (table : List (List ℝ)) (int_codes : List ℕ) :
    List (List ℝ) :=
  int_codes.map (simRow table)

/-- The comparison key of the index sort modelling `np.argsort`: index `i`
precedes index `j` when its value is smaller, ties broken by lower index
first (the stable order; numpy's argsort coincides with it on small arrays
and with `kind='stable'`). -/
def keyLE (xs : List ℝ) (i j : ℕ) : Prop :=
  xs.getD i 0 < xs.getD j 0 ∨ (xs.getD i 0 = xs.getD j 0 ∧ i ≤ j)

noncomputable instance keyLE.decidableRel (xs : List ℝ) :
    DecidableRel (keyLE xs) := fun i j => by
  unfold keyLE
  infer_instance

instance keyLE.isTotal (xs : List ℝ) : IsTotal ℕ (keyLE xs) where
  total i j := by
    unfold keyLE
    rcases lt_trichotomy (xs.getD i 0) (xs.getD j 0) with h | h | h
    · exact Or.inl (Or.inl h)
    · rcases Nat.le_total i j with hij | hij
      · exact Or.inl (Or.inr ⟨h, hij⟩)
      · exact Or.inr (Or.inr ⟨h.symm, hij⟩)
    · exact Or.inr (Or.inl h)

instance keyLE.isTrans (xs : List ℝ) : IsTrans ℕ (keyLE xs) where
  trans a b c hab hbc := by
    unfold keyLE at hab hbc ⊢
    rcases hab with h1 | ⟨h1, h1'⟩ <;> rcases hbc with h2 | ⟨h2, h2'⟩
    · exact Or.inl (h1.trans h2)
    · exact Or.inl (by rw [← h2]; exact h1)
    · exact Or.inl (by rw [h1]; exact h2)
    · exact Or.inr ⟨h1.trans h2, h1'.trans h2'⟩

/-- `np.argsort(xs)`: indices `0, …, len(xs)-1` sorted by ascending value,
ties in ascending index order (stable). -/
noncomputable def argsortAsc (xs : List ℝ) : List ℕ :=
  List.insertionSort (keyLE xs) (List.range xs.length)

/-- `(-sim[i, :]).argsort()`: the descending similarity ranking. -/
noncomputable def rankDesc (sims : List ℝ) : List ℕ :=
  argsortAsc (sims.map (fun s => -s))

/-- `nearest = (-sim[i, :]).argsort()[1:top_k+1]`. -/
noncomputable def nearest (sims : List ℝ) (top_k : ℕ) : List ℕ :=
  ((rankDesc sims).drop 1).take top_k

theorem argsortAsc_sorted (xs : List ℝ) :
    (argsortAsc xs).Sorted (keyLE xs) :=
  List.sorted_insertionSort _ _

theorem argsortAsc_perm (xs : List ℝ) :
    List.Perm (argsortAsc xs) (List.range xs.length) :=
  List.perm_insertionSort _ _

theorem argsortAsc_nodup (xs : List ℝ) : (argsortAsc xs).Nodup :=
  ((argsortAsc_perm xs).nodup_iff).mpr (List.nodup_range xs.length)

theorem mem_argsortAsc {xs : List ℝ} {i : ℕ} :
    i ∈ argsortAsc xs ↔ i < xs.length := by
  rw [(argsortAsc_perm xs).mem_iff, List.mem_range]

/-- In a sorted list, an element strictly below every other element (w.r.t.
the ordering relation) is the head. -/
theorem sorted_head_strict_min {r : ℕ → ℕ → Prop} {l : List ℕ}
    (hs : l.Sorted r) {q : ℕ} (hql : q ∈ l)
    (hmin : ∀ j ∈ l, j ≠ q → ¬ r j q) : l.head? = some q := by
  cases l with
  | nil => cases hql
  | cons h t =>
    by_cases hhq : h = q
    · simp [hhq]
    · exfalso
      have hq' : q ∈ t := by
        rcases List.mem_cons.mp hql with h' | h'
        · exact absurd h'.symm hhq
        · exact h'
      exact hmin h (List.mem_cons_self h t) hhq ((List.sorted_cons.mp hs).1 q hq')

/-- In a sorted duplicate-free list, strictly smaller elements come first. -/
theorem sorted_indexOf_lt {r : ℕ → ℕ → Prop} :
    ∀ {l : List ℕ}, l.Sorted r → l.Nodup → ∀ {i j : ℕ}, i ∈ l → j ∈ l →
      r i j → ¬ r j i → l.indexOf i < l.indexOf j := by
  intro l
  induction l with
  | nil => intro _ _ i j hi _ _ _; cases hi
  | cons h t ih =>
    intro hs hn i j hi hj hij hji
    have hne : i ≠ j := by rintro rfl; exact hji hij
    by_cases hhi : h = i
    · rw [List.indexOf_cons_eq t hhi,
        List.indexOf_cons_ne t (fun h' => hne (hhi.symm.trans h'))]
      omega
    · by_cases hhj : h = j
      · have hit : i ∈ t := by
          rcases List.mem_cons.mp hi with h' | h'
          · exact absurd h'.symm hhi
          · exact h'
        have hr : r h i := (List.sorted_cons.mp hs).1 i hit
        rw [hhj] at hr
        exact absurd hr hji
      · have hit : i ∈ t := by
          rcases List.mem_cons.mp hi with h' | h'
          · exact absurd h'.symm hhi
          · exact h'
        have hjt : j ∈ t := by
          rcases List.mem_cons.mp hj with h' | h'
          · exact absurd h'.symm hhj
          · exact h'
        rw [List.indexOf_cons_ne t hhi, List.indexOf_cons_ne t hhj]
        have := ih (List.sorted_cons.mp hs).2 (List.nodup_cons.mp hn).2
          hit hjt hij hji
        omega

theorem getD_map_neg (sims : List ℝ) (m : ℕ) (hm : m < sims.length) :
    (sims.map (fun s => -s)).getD m 0 = -(sims.getD m 0) := by
  rw [List.getD_eq_getElem?_getD, List.getD_eq_getElem?_getD,
    List.getElem?_map, List.getElem?_eq_getElem hm]
  rfl

theorem simRow_length (table : List (List ℝ)) (q : ℕ) :
    (simRow table q).length = table.length := by
  simp [simRow]

/-- Claim C6: in the validator's descending ranking
`(-sim[i, :]).argsort()` (with the stable tie order of the argsort model),
two ids with exactly equal cosine similarity to the query are ranked with
the lower id first. -/
theorem ranking_tie_lower_id_first (table : List (List ℝ)) (q i j : ℕ)
    (hij : i < j) (hj : j < table.length)
    (htie : (simRow table q).getD i 0 = (simRow table q).getD j 0) :
    (rankDesc (simRow table q)).indexOf i <
      (rankDesc (simRow table q)).indexOf j := by
  have hi : i < table.length := lt_trans hij hj
  have hsl : (simRow table q).length = table.length := simRow_length table q
  unfold rankDesc
  set xs : List ℝ := (simRow table q).map (fun s => -s) with hxs
  have hxlen : xs.length = table.length := by
    rw [hxs, List.length_map, hsl]
  have hgi : xs.getD i 0 = -((simRow table q).getD i 0) :=
    getD_map_neg _ _ (by omega)
  have hgj : xs.getD j 0 = -((simRow table q).getD j 0) :=
    getD_map_neg _ _ (by omega)
  have hkij : keyLE xs i j := by
    unfold keyLE
    exact Or.inr ⟨by rw [hgi, hgj, htie], Nat.le_of_lt hij⟩
  have hkji : ¬ keyLE xs j i := by
    intro hk
    unfold keyLE at hk
    rcases hk with h | ⟨h, h'⟩
    · rw [hgi, hgj, htie] at h
      exact lt_irrefl _ h
    · omega
  exact sorted_indexOf_lt (argsortAsc_sorted xs) (argsortAsc_nodup xs)
    (mem_argsortAsc.mpr (by omega)) (mem_argsortAsc.mpr (by omega)) hkij hkji

/-- Claim C2 amended: the top-K nearest-neighbor list never contains the query id
itself *provided* the query's similarity to itself is a strict maximum over
all other ids (no exact tie, e.g. no duplicate of the query's row): the
query then occupies rank 0 and the `[1:top_k+1]` slice skips it, for every
K.  With an exact tie at rank 0 the slice can return the query id. -/
theorem validator_skips_query_of_strict_max (table : List (List ℝ)) (q K : ℕ)
    (hq : q < table.length)
    (hmax : ∀ j, j < table.length → j ≠ q →
      (simRow table q).getD j 0 < (simRow table q).getD q 0) :
    q ∉ nearest (simRow table q) K := by
  unfold nearest rankDesc
  set xs : List ℝ := (simRow table q).map (fun s => -s) with hxs
  have hsl : (simRow table q).length = table.length := simRow_length table q
  have hxlen : xs.length = table.length := by
    rw [hxs, List.length_map, hsl]
  have hmem : q ∈ argsortAsc xs := mem_argsortAsc.mpr (by omega)
  have hmin : ∀ j ∈ argsortAsc xs, j ≠ q → ¬ keyLE xs j q := by
    intro j hjm hjq
    have hjl : j < table.length := by
      have := mem_argsortAsc.mp hjm
      omega
    have hgj : xs.getD j 0 = -((simRow table q).getD j 0) :=
      getD_map_neg _ _ (by omega)
    have hgq : xs.getD q 0 = -((simRow table q).getD q 0) :=
      getD_map_neg _ _ (by omega)
    have hlt := hmax j hjl hjq
    intro hk
    unfold keyLE at hk
    rcases hk with h | ⟨h, _⟩
    · rw [hgj, hgq] at h
      linarith
    · rw [hgj, hgq] at h
      have h' : (simRow table q).getD j 0 = (simRow table q).getD q 0 := by
        linarith
      linarith
  have hhead := sorted_head_strict_min (argsortAsc_sorted xs) hmem hmin
  obtain ⟨t, ht⟩ : ∃ t, argsortAsc xs = q :: t := by
    cases hl : argsortAsc xs with
    | nil => rw [hl] at hhead; simp at hhead
    | cons a t =>
      rw [hl] at hhead
      simp only [List.head?_cons, Option.some.injEq] at hhead
      exact ⟨t, by rw [hhead]⟩
  have hnd := argsortAsc_nodup xs
  rw [ht] at hnd ⊢
  simp only [List.drop_succ_cons, List.drop_zero]
  intro hmem'
  exact (List.nodup_cons.mp hnd).1 (List.mem_of_mem_take hmem')

theorem normalizeRow_eval10 : normalizeRow [(1 : ℝ), 0] = [1, 0] := by
  have h : ((([(1 : ℝ), 0]).map (fun x => x ^ 2)).sum) = 1 := by norm_num
  unfold normalizeRow rowNorm
  simp only [h, Real.sqrt_one]
  norm_num

theorem normalizeRow_eval01 : normalizeRow [(0 : ℝ), 1] = [0, 1] := by
  have h : ((([(0 : ℝ), 1]).map (fun x => x ^ 2)).sum) = 1 := by norm_num
  unfold normalizeRow rowNorm
  simp only [h, Real.sqrt_one]
  norm_num

theorem simRow_dup (q : ℕ) (hq : q < 2) :
    simRow [[(1 : ℝ), 0], [1, 0]] q = [1, 1] := by
  unfold simRow dot
  simp only [List.map_cons, List.map_nil, normalizeRow_eval10]
  interval_cases q <;> norm_num

theorem simRow_orth0 : simRow [[(1 : ℝ), 0], [0, 1]] 0 = [1, 0] := by
  unfold simRow dot
  simp only [List.map_cons, List.map_nil, normalizeRow_eval10,
    normalizeRow_eval01]
  norm_num

/-- Claim C2 fails on exact similarity ties: in the table `[[1,0],[1,0]]` rows 0
and 1 are identical, so for the in-range query id 1 both ids tie at
similarity 1; the argsort ranks id 0 first, and the `[1:top_k+1]` slice —
which assumes the query sits at rank 0 — returns `[1]`, the query id
itself. -/
theorem validator_returns_query_counterexample :
    1 < ([[(1 : ℝ), 0], [1, 0]] : List (List ℝ)).length ∧
      validate [[(1 : ℝ), 0], [1, 0]] [1] = [simRow [[(1 : ℝ), 0], [1, 0]] 1] ∧
      nearest (simRow [[(1 : ℝ), 0], [1, 0]] 1) 1 = [1] := by
  refine ⟨by norm_num, rfl, ?_⟩
  rw [simRow_dup 1 (by norm_num)]
  unfold nearest rankDesc argsortAsc
  have hmap : (([1, 1] : List ℝ).map (fun s => -s)) = [-1, -1] := by norm_num
  rw [hmap]
  have hkey : keyLE ([-1, -1] : List ℝ) 0 1 := by
    unfold keyLE
    exact Or.inr ⟨rfl, by omega⟩
  rw [show (([-1, -1] : List ℝ)).length = 2 from rfl,
    show List.range 2 = [0, 1] by decide]
  rw [List.insertionSort, List.insertionSort, List.insertionSort,
    List.orderedInsert_nil,
    List.orderedInsert_of_le (keyLE ([-1, -1] : List ℝ)) [] hkey]
  rfl

/-- Witness for the amended C2 theorem: table `[[1,0],[0,1]]`, query 0,
`K = 1`; the self-similarity 1 strictly exceeds the other similarity 0. -/
theorem validator_skips_query_witness :
    0 < ([[(1 : ℝ), 0], [0, 1]] : List (List ℝ)).length ∧
      (∀ j, j < ([[(1 : ℝ), 0], [0, 1]] : List (List ℝ)).length → j ≠ 0 →
        (simRow [[(1 : ℝ), 0], [0, 1]] 0).getD j 0 <
          (simRow [[(1 : ℝ), 0], [0, 1]] 0).getD 0 0) ∧
      0 ∉ nearest (simRow [[(1 : ℝ), 0], [0, 1]] 0) 1 := by
  have hmax : ∀ j, j < ([[(1 : ℝ), 0], [0, 1]] : List (List ℝ)).length →
      j ≠ 0 → (simRow [[(1 : ℝ), 0], [0, 1]] 0).getD j 0 <
        (simRow [[(1 : ℝ), 0], [0, 1]] 0).getD 0 0 := by
    intro j hj hj0
    have hj' : j < 2 := by simpa using hj
    rw [simRow_orth0]
    interval_cases j
    · exact absurd rfl hj0
    · norm_num
  exact ⟨by norm_num, hmax,
    validator_skips_query_of_strict_max [[(1 : ℝ), 0], [0, 1]] 0 1
      (by norm_num) hmax⟩

/-- Witness for the C6 theorem: table `[[1,0],[1,0]]`, query 0, tied ids 0
and 1. -/
theorem ranking_tie_witness :
    (0 : ℕ) < 1 ∧ 1 < ([[(1 : ℝ), 0], [1, 0]] : List (List ℝ)).length ∧
      (simRow [[(1 : ℝ), 0], [1, 0]] 0).getD 0 0 =
        (simRow [[(1 : ℝ), 0], [1, 0]] 0).getD 1 0 ∧
      (rankDesc (simRow [[(1 : ℝ), 0], [1, 0]] 0)).indexOf 0 <
        (rankDesc (simRow [[(1 : ℝ), 0], [1, 0]] 0)).indexOf 1 := by
  have htie : (simRow [[(1 : ℝ), 0], [1, 0]] 0).getD 0 0 =
      (simRow [[(1 : ℝ), 0], [1, 0]] 0).getD 1 0 := by
    rw [simRow_dup 0 (by norm_num)]
    simp
  exact ⟨by norm_num, by norm_num, htie,
    ranking_tie_lower_id_first [[(1 : ℝ), 0], [1, 0]] 0 0 1 (by norm_num)
      (by norm_num) htie⟩

/-- The payload pickled by the vocabulary save cell: the two id mappings
plus the embedding-dimension and sample-count hyperparameters. -/
structure VocabArtifact where
  vocab_to_int : List (String × ℕ)
  int_to_vocab : List (ℕ × String)
  embed_dim : ℕ
  num_sampled : ℕ

/-- Embeds the vocabulary save cell acting on the content of the single path
`dictionary_path` (`none` = file absent):
`if os.path.exists(dictionary_path): os.remove(dictionary_path)`
`else: ... pickle.dump(to_save, f)`.
When the file already exists the cell removes it and, because the dump sits
in the `else` branch, writes nothing; only on a fresh run is the payload
written. -/
def saveVocabCell (existing : Option VocabArtifact)
    (to_save : VocabArtifact) : Option VocabArtifact :=
  match existing with
  | some _ => none
  | none => some to_save

/-- A concrete payload for evaluating the save cell. -/
def exampleArtifact : VocabArtifact :=
  ⟨[("a", 0)], [(0, "a")], 300, 100⟩

/-- Claim C5 (code bug): when a file of the artifact's name already exists before
the cell runs, the cell deletes it and skips `pickle.dump` entirely, so no
artifact is persisted — contradicting "written exactly once … regardless of
whether a file of that name already existed".  The payload is written only
when the file did not pre-exist. -/
theorem save_cell_skips_write_when_file_exists :
    saveVocabCell (some exampleArtifact) exampleArtifact = none ∧
      saveVocabCell none exampleArtifact = some exampleArtifact :=
  ⟨rfl, rfl⟩

end Word2Vec
